import Mathlib

/-
Verification of the brainfuck virtual machine core (src/brainfuck.rs, VMCore).

The embedding below translates the Rust source:
  * `scanJumps` / `compute_jumps` embed `VMCore::compute_jumps`: the while loop
    over `counter < nbytes` reading `code[counter]` is rendered as structural
    recursion over the list `code.take nbytes` of exactly the bytes the loop
    reads, carrying the absolute offset `counter`, the stack of pending `[`
    offsets and the jumps map (a `HashMap<usize, usize>` modelled as a
    function `Nat -> Option Nat`, `insert` as pointwise update).  `Err` is
    modelled as `none`.
  * `VMState` embeds the `VMCore` struct; `data` (a `Vec<u8>` of fixed size
    DATA_SIZE whose cells always hold values < 256) is modelled as a function
    from cell index to value, and writes as pointwise update `updData`.
  * Wrapping arithmetic: the source masks with `& 255` / `& (DATA_SIZE - 1)`.
    Where the masked operand is nonnegative (`(value + 1) & 255` on i16,
    `(dp + 1) & (DATA_SIZE - 1)` on usize), the embedding keeps the bitwise
    mask on `Nat` (`&&&`).  Where the operand can be negative
    (`(value - 1) & 255` on i16, `(dp - 1) & (DATA_SIZE - 1)` on i32), the
    two's-complement AND with the mask `2 ^ k - 1` is reduction modulo
    `2 ^ k`; it is embedded as explicit `% 2 ^ k` on `Int` (the machine
    integers are in range, so no other overflow occurs).
  * `step` embeds one iteration of `VMCore::execute`'s dispatch loop: the
    bounds test `pc < code.len()`, the read of `code[pc]`, the increment of
    `pc`, and the opcode match.  The external devices appear as parameters:
    `inp` is what `Term::read_char()` returns for this iteration (`none` for
    its `Err` arm), and the `.` arm's printing has no effect on the state.
    `.halted` is the loop exit, `.crash` is a run-time panic of the source
    (an `unwrap` on a missing jump key or on `to_digit` of a non-digit).
  * `load` embeds `VMCore::load` given the file's bytes: the read buffer
    `[0u8; CODE_SIZE]` receives the first `min length CODE_SIZE` bytes and
    the whole buffer is pushed into `code` (`padCode`); `compute_jumps` is
    run on the byte count and its failure (`unwrap` of `Err`) is `none`.
-/

namespace RsBf

/-- CODE_SIZE from the source: `1 << 15` bytes of program memory. -/
def CODE_SIZE : Nat := 1 <<< 15

/-- DATA_SIZE from the source: `1 << 15` data cells. -/
def DATA_SIZE : Nat := 1 <<< 15

/-- HashMap insert modelled pointwise: later inserts shadow earlier ones. -/
def bfInsert (m : Nat → Option Nat) (k v : Nat) : Nat → Option Nat :=
  fun i => if i = k then some v else m i

/-- Loop body of `VMCore::compute_jumps`, scanning the remaining bytes `rem`
(the bytes at offsets `counter, counter+1, ...`).  On `[` (91) the offset is
pushed; on `]` (93) an empty stack is the unbalanced-brackets error (`none`),
otherwise the matching open offset is popped and the two entries
`jumps[open] = close + 1`, `jumps[close] = open + 1` are inserted.  After the
scan a non-empty stack is the unbalanced-brackets error. -/
def scanJumps : Nat → List Nat → List Nat → (Nat → Option Nat) → Option (Nat → Option Nat)
  | _, [], stack, jumps => if stack.isEmpty then some jumps else none
  | counter, opcode :: rest, stack, jumps =>
    let stack1 := if opcode = 91 then counter :: stack else stack
    if opcode = 93 then
      match stack1 with
      | [] => none
      | value :: rest2 =>
        scanJumps (counter + 1) rest rest2
          (bfInsert (bfInsert jumps value (counter + 1)) counter (value + 1))
    else
      scanJumps (counter + 1) rest stack1 jumps

/-- The Jump Resolver `VMCore::compute_jumps`: scan the first `nbytes` bytes
of the code, produce the jump mapping or fail (`none`) on unbalanced
brackets. -/
def compute_jumps (code : List Nat) (nbytes : Nat) : Option (Nat → Option Nat) :=
  scanJumps 0 (code.take nbytes) [] (fun _ => none)

/-- The `VMCore` struct: program counter, data pointer, code bytes, data tape
(as a function from cell index to cell value) and the jump mapping. -/
structure VMState where
  pc : Nat
  dp : Nat
  code : List Nat
  data : Nat → Nat
  jumps : Nat → Option Nat

/-- Write one cell of the data tape. -/
def updData (f : Nat → Nat) (i v : Nat) : Nat → Nat :=
  fun j => if j = i then v else f j

/-- Opcode 43, `+`: `VMCore::data_value_inc`, `(value + 1) & 255` on a cell
value (the i16 operand is nonnegative, so the mask stays on `Nat`). -/
def data_value_inc (s : VMState) : VMState :=
  { s with data := updData s.data s.dp ((s.data s.dp + 1) &&& 255) }

/-- Opcode 45, `-`: `VMCore::data_value_dec`, `(value - 1) & 255` on i16; the
operand can be `-1`, and the two's-complement mask by `255 = 2^8 - 1` is
reduction mod 256, embedded as explicit `%` on `Int`. -/
def data_value_dec (s : VMState) : VMState :=
  { s with data := updData s.data s.dp ((((s.data s.dp : Int) - 1) % 256).toNat) }

/-- Opcode 62, `>`: `VMCore::data_ptr_inc`, `(dp + 1) & (DATA_SIZE - 1)` on
usize (nonnegative, so the mask stays on `Nat`). -/
def data_ptr_inc (s : VMState) : VMState :=
  { s with dp := (s.dp + 1) &&& (DATA_SIZE - 1) }

/-- Opcode 60, `<`: `VMCore::data_ptr_dec`, `(dp - 1) & (DATA_SIZE - 1)` on
i32; the operand can be `-1`, and the two's-complement mask by
`DATA_SIZE - 1 = 2^15 - 1` is reduction mod `2^15`, embedded as explicit `%`
on `Int`. -/
def data_ptr_dec (s : VMState) : VMState :=
  { s with dp := ((((s.dp : Int) - 1) % (DATA_SIZE : Int))).toNat }

/-- Opcode 91, `[`: `VMCore::jump_fwd`.  Called with `pc` already advanced;
if the current cell is 0, `pc` is overwritten with `jumps[pc - 1]`.  A
missing key is the source's indexing panic (`none`). -/
def jump_fwd (s : VMState) : Option VMState :=
  if s.data s.dp = 0 then
    match s.jumps (s.pc - 1) with
    | some t => some { s with pc := t }
    | none => none
  else some s

/-- Opcode 93, `]`: `VMCore::jump_bck`, symmetric to `jump_fwd` for a
non-zero current cell. -/
def jump_bck (s : VMState) : Option VMState :=
  if s.data s.dp ≠ 0 then
    match s.jumps (s.pc - 1) with
    | some t => some { s with pc := t }
    | none => none
  else some s

/-- Rust `char::to_digit(10)`: `some` of the digit value for ASCII `0`..`9`,
otherwise `none`. -/
def toDigit10 (c : Char) : Option Nat :=
  if 48 ≤ c.toNat ∧ c.toNat ≤ 57 then some (c.toNat - 48) else none

/-- The `,` (44) arm of `VMCore::execute` once a character was read:
`data[dp] = (value.to_digit(10).unwrap() & 255) as u8`.  The `unwrap` panics
on a non-digit character (`none`). -/
def readStore (c : Char) (s : VMState) : Option VMState :=
  match toDigit10 c with
  | some d => some { s with data := updData s.data s.dp (d &&& 255) }
  | none => none

/-- Result of one iteration of the dispatch loop: loop exit, next state, or a
run-time panic of the source. -/
inductive StepRes where
  | halted : StepRes
  | next : VMState → StepRes
  | crash : StepRes

/-- The opcode match of `VMCore::execute`, applied to the state with `pc`
already advanced.  `46` (`.`) only prints; any unrecognized byte falls
through to `continue`. -/
def dispatch (inp : Option Char) (s1 : VMState) (opcode : Nat) : StepRes :=
  if opcode = 43 then .next (data_value_inc s1)
  else if opcode = 45 then .next (data_value_dec s1)
  else if opcode = 62 then .next (data_ptr_inc s1)
  else if opcode = 60 then .next (data_ptr_dec s1)
  else if opcode = 91 then
    match jump_fwd s1 with
    | some s2 => .next s2
    | none => .crash
  else if opcode = 93 then
    match jump_bck s1 with
    | some s2 => .next s2
    | none => .crash
  else if opcode = 46 then .next s1
  else if opcode = 44 then
    match inp with
    | some c =>
      match readStore c s1 with
      | some s2 => .next s2
      | none => .crash
    | none => .next s1
  else .next s1

/-- One iteration of `VMCore::execute`'s loop: while `pc < code.len()`, read
`code[pc]`, advance `pc` by one, dispatch; otherwise the loop exits. -/
def step (inp : Option Char) (s : VMState) : StepRes :=
  if s.pc < s.code.length then
    dispatch inp { s with pc := s.pc + 1 } (s.code.getD s.pc 0)
  else .halted

/-- Fuel-bounded iteration of `step` with no input available; `some` is the
state at loop exit, `none` is a panic or exhausted fuel. -/
def run : Nat → VMState → Option VMState
  | 0, _ => none
  | fuel + 1, s =>
    match step none s with
    | .halted => some s
    | .next s2 => run fuel s2
    | .crash => none

/-- The code buffer built by `VMCore::load`: a `[0u8; CODE_SIZE]` array whose
first `min length CODE_SIZE` bytes come from the file, pushed in full into
`code`. -/
def padCode (src : List Nat) : List Nat :=
  src.take CODE_SIZE ++ List.replicate (CODE_SIZE - min src.length CODE_SIZE) 0

/-- `VMCore::load` on a fresh `VMCore::new`, given the file's bytes: fill the
code buffer, compute the jumps over the `n` bytes read (its `unwrap` panic is
`none`), and return `Ok(n)` together with the resulting machine state. -/
def load (src : List Nat) : Option (Nat × VMState) :=
  let n := min src.length CODE_SIZE
  match compute_jumps (padCode src) n with
  | some j => some (n, ⟨0, 0, padCode src, fun _ => 0, j⟩)
  | none => none

/-- Slice of the code between offsets `a` (included) and `b` (excluded). -/
def slice (l : List Nat) (a b : Nat) : List Nat :=
  (l.drop a).take (b - a)

/-- Balanced bracket string: as many `[` (91) as `]` (93) overall, and no
prefix with more `]` than `[`. -/
def Bal (s : List Nat) : Prop :=
  (∀ k, k ≤ s.length → (s.take k).count 93 ≤ (s.take k).count 91) ∧
    s.count 93 = s.count 91

/-- Balance relative to `L` pending open brackets: every prefix closes at
most `L` more brackets than it opens, and the whole string closes exactly
`L` more than it opens. -/
def BalFrom (L : Nat) (s : List Nat) : Prop :=
  (∀ k, k ≤ s.length → (s.take k).count 93 ≤ (s.take k).count 91 + L) ∧
    s.count 93 = s.count 91 + L

/-- Matched bracket pair: `[` at `o`, `]` at `c`, with a balanced bracket
string strictly between them. -/
def MatchedPair (code : List Nat) (o c : Nat) : Prop :=
  o < c ∧ code.getD o 0 = 91 ∧ code.getD c 0 = 93 ∧ Bal (slice code (o + 1) c)

/-- A close bracket at offset `k` that no earlier open bracket is left to
match: the first `k` bytes close at least as often as they open. -/
def UnmatchedCloseAt (code : List Nat) (n k : Nat) : Prop :=
  k < n ∧ code.getD k 0 = 93 ∧ (code.take k).count 91 ≤ (code.take k).count 93

/-- Invariant of the resolver's stack at scan position `counter`: offsets in
decreasing order, each holding a `[`, with balanced bracket strings between
consecutive stack entries and from the top entry to the scan position. -/
def StackInv (code : List Nat) : Nat → List Nat → Prop
  | _, [] => True
  | counter, t :: rest =>
    t < counter ∧ code.getD t 0 = 91 ∧ Bal (slice code (t + 1) counter) ∧
      StackInv code t rest

/-- Every entry of the jump mapping comes from a matched pair, carrying both
of the pair's entries. -/
def PairsOK (code : List Nat) (jumps : Nat → Option Nat) : Prop :=
  ∀ k v, jumps k = some v →
    ∃ o c, MatchedPair code o c ∧
      ((k = o ∧ v = c + 1) ∨ (k = c ∧ v = o + 1)) ∧
      jumps o = some (c + 1) ∧ jumps c = some (o + 1)

instance (s : List Nat) : Decidable (Bal s) := by
  unfold Bal; exact instDecidableAnd

instance (L : Nat) (s : List Nat) : Decidable (BalFrom L s) := by
  unfold BalFrom; exact instDecidableAnd

instance (code : List Nat) (o c : Nat) : Decidable (MatchedPair code o c) := by
  unfold MatchedPair; exact instDecidableAnd

instance (code : List Nat) (n k : Nat) : Decidable (UnmatchedCloseAt code n k) := by
  unfold UnmatchedCloseAt; exact instDecidableAnd

/-- Masking with `2 ^ k - 1` on a nonnegative machine integer is reduction
modulo `2 ^ k`. -/
theorem land_mask (n k : Nat) : n &&& (2 ^ k - 1) = n % 2 ^ k := by
  apply Nat.eq_of_testBit_eq
  intro i
  rw [Nat.testBit_land, Nat.testBit_mod_two_pow, Nat.testBit_two_pow_sub_one,
    Bool.and_comm]

theorem emod_toNat_cast (x : Int) (m : Nat) (hm : 0 < m) :
    (((x % (m : Int)).toNat : Int)) = x % (m : Int) := by
  apply Int.toNat_of_nonneg
  apply Int.emod_nonneg
  omega

theorem emod_toNat_lt (x : Int) (m : Nat) (hm : 0 < m) : (x % (m : Int)).toNat < m := by
  have h1 : x % (m : Int) < (m : Int) := Int.emod_lt_of_pos x (by omega)
  have h2 : 0 ≤ x % (m : Int) := Int.emod_nonneg x (by omega)
  omega

theorem slice_self (l : List Nat) (a : Nat) : slice l a a = [] := by
  simp [slice]

theorem slice_zero (l : List Nat) (n : Nat) : slice l 0 n = l.take n := by
  simp [slice]

theorem slice_append (l : List Nat) (a b c : Nat) (h1 : a ≤ b) (h2 : b ≤ c) :
    slice l a c = slice l a b ++ slice l b c := by
  unfold slice
  have hc : c - a = (b - a) + (c - b) := by omega
  rw [hc, List.take_add, List.drop_drop]
  have hb : a + (b - a) = b := by omega
  rw [hb]

theorem slice_singleton (l : List Nat) (a : Nat) (h : a < l.length) :
    slice l a (a + 1) = [l.getD a 0] := by
  unfold slice
  have h1 : a + 1 - a = 1 := by omega
  rw [h1, List.drop_eq_getElem_cons h, List.take_succ_cons, List.take_zero,
    List.getD_eq_getElem l 0 h]

theorem slice_extend (l : List Nat) (a b : Nat) (hab : a ≤ b) (hb : b < l.length) :
    slice l a (b + 1) = slice l a b ++ [l.getD b 0] := by
  rw [slice_append l a b (b + 1) hab (by omega), slice_singleton l b hb]

theorem slice_cons (l : List Nat) (a b : Nat) (hab : a < b) (ha : a < l.length) :
    slice l a b = l.getD a 0 :: slice l (a + 1) b := by
  unfold slice
  rw [List.drop_eq_getElem_cons ha]
  have hba : b - a = (b - (a + 1)) + 1 := by omega
  rw [hba, List.take_succ_cons, List.getD_eq_getElem l 0 ha]

theorem slice_nil_of_le (l : List Nat) (a b : Nat) (h : b ≤ a) : slice l a b = [] := by
  unfold slice
  have : b - a = 0 := by omega
  rw [this, List.take_zero]

theorem bal_nil : Bal [] := by
  constructor
  · intro k _; simp
  · simp

theorem bal_prefix_le {s : List Nat} (h : Bal s) (k : Nat) :
    (s.take k).count 93 ≤ (s.take k).count 91 := by
  rcases le_or_lt k s.length with hk | hk
  · exact h.1 k hk
  · rw [List.take_of_length_le (by omega)]
    exact Nat.le_of_eq h.2

theorem bal_count_le {s : List Nat} (h : Bal s) : s.count 93 ≤ s.count 91 :=
  Nat.le_of_eq h.2

theorem bal_append_other {s : List Nat} {x : Nat} (hs : Bal s) (hx91 : x ≠ 91)
    (hx93 : x ≠ 93) : Bal (s ++ [x]) := by
  have hsingle91 : ([x] : List Nat).count 91 = 0 := by
    simp [List.count_cons, hx91]
  have hsingle93 : ([x] : List Nat).count 93 = 0 := by
    simp [List.count_cons, hx93]
  constructor
  · intro k _
    rw [List.take_append_eq_append_take, List.count_append, List.count_append]
    have h1 : (List.take (k - s.length) [x]).count 93 = 0 := by
      rcases Nat.eq_zero_or_pos (k - s.length) with h0 | h0
      · rw [h0, List.take_zero, List.count_nil]
      · rw [List.take_of_length_le (by simp; omega)]
        exact hsingle93
    have h2 : (s.take k).count 93 ≤ (s.take k).count 91 := bal_prefix_le hs k
    omega
  · rw [List.count_append, List.count_append, hsingle91, hsingle93]
    have := hs.2
    omega

theorem bal_wrap {s u : List Nat} (hs : Bal s) (hu : Bal u) :
    Bal (s ++ 91 :: (u ++ [93])) := by
  have hcount91 : (91 :: (u ++ [93])).count 91 = u.count 91 + 1 := by
    simp [List.count_cons, List.count_append]
  have hcount93 : (91 :: (u ++ [93])).count 93 = u.count 93 + 1 := by
    simp [List.count_cons, List.count_append]
  constructor
  · intro k _
    rw [List.take_append_eq_append_take, List.count_append, List.count_append]
    have hpre : (s.take k).count 93 ≤ (s.take k).count 91 := bal_prefix_le hs k
    have htail : (List.take (k - s.length) (91 :: (u ++ [93]))).count 93 ≤
        (List.take (k - s.length) (91 :: (u ++ [93]))).count 91 := by
      rcases hm : k - s.length with _ | j
      · simp
      · rw [List.take_succ_cons, List.count_cons, List.count_cons,
          List.take_append_eq_append_take, List.count_append, List.count_append]
        have hu1 : (u.take j).count 93 ≤ (u.take j).count 91 := bal_prefix_le hu j
        have h93tail : (List.take (j - u.length) [93]).count 93 ≤ 1 := by
          rcases Nat.eq_zero_or_pos (j - u.length) with h0 | h0
          · rw [h0, List.take_zero, List.count_nil]; omega
          · rw [List.take_of_length_le (by simp; omega)]
            simp
        rcases le_or_lt (j - u.length) 0 with h0 | h0
        · have h0' : j - u.length = 0 := by omega
          rw [h0', List.take_zero, List.count_nil, List.count_nil]
          simp
          omega
        · have hju : u.length ≤ j := by omega
          have e1 : List.take j u = u := List.take_of_length_le hju
          have e2 : List.take (j - u.length) ([93] : List Nat) = [93] :=
            List.take_of_length_le (by simp; omega)
          rw [e1, e2]
          have := hu.2
          simp [List.count_cons]
          omega
    omega
  · rw [List.count_append, List.count_append, hcount91, hcount93]
    have := hs.2
    have := hu.2
    omega

theorem scanJumps_cons_open (counter : Nat) (rest stack : List Nat)
    (jumps : Nat → Option Nat) :
    scanJumps counter (91 :: rest) stack jumps =
      scanJumps (counter + 1) rest (counter :: stack) jumps := by
  simp [scanJumps]

theorem scanJumps_cons_close_nil (counter : Nat) (rest : List Nat)
    (jumps : Nat → Option Nat) :
    scanJumps counter (93 :: rest) [] jumps = none := by
  simp [scanJumps]

theorem scanJumps_cons_close (counter value : Nat) (rest rest2 : List Nat)
    (jumps : Nat → Option Nat) :
    scanJumps counter (93 :: rest) (value :: rest2) jumps =
      scanJumps (counter + 1) rest rest2
        (bfInsert (bfInsert jumps value (counter + 1)) counter (value + 1)) := by
  simp [scanJumps]

theorem scanJumps_cons_other (counter opcode : Nat) (rest stack : List Nat)
    (jumps : Nat → Option Nat) (h91 : opcode ≠ 91) (h93 : opcode ≠ 93) :
    scanJumps counter (opcode :: rest) stack jumps =
      scanJumps (counter + 1) rest stack jumps := by
  simp [scanJumps, h91, h93]

theorem balFrom_nil (L : Nat) : BalFrom L [] ↔ L = 0 := by
  unfold BalFrom
  constructor
  · rintro ⟨_, h2⟩
    simp at h2
    omega
  · rintro rfl
    exact ⟨fun k _ => by simp, by simp⟩

theorem balFrom_cons_open (L : Nat) (rest : List Nat) :
    BalFrom L (91 :: rest) ↔ BalFrom (L + 1) rest := by
  unfold BalFrom
  constructor
  · rintro ⟨h1, h2⟩
    refine ⟨?_, ?_⟩
    · intro k hk
      have := h1 (k + 1) (by simp; omega)
      rw [List.take_succ_cons] at this
      simp [List.count_cons] at this ⊢
      omega
    · simp [List.count_cons] at h2
      omega
  · rintro ⟨h1, h2⟩
    refine ⟨?_, ?_⟩
    · intro k hk
      cases k with
      | zero => simp
      | succ j =>
        have := h1 j (by simp at hk; omega)
        rw [List.take_succ_cons]
        simp [List.count_cons]
        omega
    · simp [List.count_cons]
      omega

theorem balFrom_cons_close (L : Nat) (rest : List Nat) :
    BalFrom (L + 1) (93 :: rest) ↔ BalFrom L rest := by
  unfold BalFrom
  constructor
  · rintro ⟨h1, h2⟩
    refine ⟨?_, ?_⟩
    · intro k hk
      have := h1 (k + 1) (by simp; omega)
      rw [List.take_succ_cons] at this
      simp [List.count_cons] at this ⊢
      omega
    · simp [List.count_cons] at h2
      omega
  · rintro ⟨h1, h2⟩
    refine ⟨?_, ?_⟩
    · intro k hk
      cases k with
      | zero => simp
      | succ j =>
        have := h1 j (by simp at hk; omega)
        rw [List.take_succ_cons]
        simp [List.count_cons]
        omega
    · simp [List.count_cons]
      omega

theorem balFrom_not_close_zero (rest : List Nat) : ¬ BalFrom 0 (93 :: rest) := by
  rintro ⟨h1, _⟩
  have := h1 1 (by simp)
  rw [List.take_succ_cons, List.take_zero] at this
  simp [List.count_cons] at this

theorem balFrom_cons_other (L opcode : Nat) (rest : List Nat) (h91 : opcode ≠ 91)
    (h93 : opcode ≠ 93) : BalFrom L (opcode :: rest) ↔ BalFrom L rest := by
  unfold BalFrom
  constructor
  · rintro ⟨h1, h2⟩
    refine ⟨?_, ?_⟩
    · intro k hk
      have := h1 (k + 1) (by simp; omega)
      rw [List.take_succ_cons] at this
      simp [List.count_cons, h91, h93] at this ⊢
      omega
    · simp [List.count_cons, h91, h93] at h2
      omega
  · rintro ⟨h1, h2⟩
    refine ⟨?_, ?_⟩
    · intro k hk
      cases k with
      | zero => simp
      | succ j =>
        have := h1 j (by simp at hk; omega)
        rw [List.take_succ_cons]
        simp [List.count_cons, h91, h93]
        omega
    · simp [List.count_cons, h91, h93]
      omega

/-- The scan fails exactly when the remaining bytes are unbalanced relative
to the current stack of pending open brackets. -/
theorem scan_none_iff (rem : List Nat) : ∀ (counter : Nat) (stack : List Nat)
    (jumps : Nat → Option Nat),
    scanJumps counter rem stack jumps = none ↔ ¬ BalFrom stack.length rem := by
  induction rem with
  | nil =>
    intro counter stack jumps
    rcases stack with _ | ⟨t, st⟩
    · simp [scanJumps, balFrom_nil]
    · simp [scanJumps, balFrom_nil]
  | cons opcode rest ih =>
    intro counter stack jumps
    by_cases h91 : opcode = 91
    · subst h91
      rw [scanJumps_cons_open, ih, balFrom_cons_open]
      simp
    · by_cases h93 : opcode = 93
      · subst h93
        rcases stack with _ | ⟨value, rest2⟩
        · rw [scanJumps_cons_close_nil]
          simp [balFrom_not_close_zero]
        · rw [scanJumps_cons_close, ih]
          simp only [List.length_cons]
          rw [balFrom_cons_close]
      · rw [scanJumps_cons_other counter opcode rest stack jumps h91 h93, ih,
          balFrom_cons_other stack.length opcode rest h91 h93]

/-- Unbalance decomposes into the two failure situations: a close bracket
with no pending open, or unequal totals. -/
theorem not_balFrom_zero_iff (s : List Nat) :
    ¬ BalFrom 0 s ↔
      ((∃ j, j < s.length ∧ s.getD j 0 = 93 ∧
          (s.take j).count 91 ≤ (s.take j).count 93) ∨
        s.count 93 ≠ s.count 91) := by
  constructor
  · intro h
    by_cases hend : s.count 93 = s.count 91
    · left
      have hA : ¬ (∀ k, k ≤ s.length → (s.take k).count 93 ≤ (s.take k).count 91) := by
        intro hA
        exact h ⟨fun k hk => by have := hA k hk; omega, by omega⟩
      push_neg at hA
      obtain ⟨k, _, hviol⟩ := hA
      have hex : ∃ m, (s.take m).count 91 < (s.take m).count 93 := ⟨k, hviol⟩
      have hP := Nat.find_spec hex
      have hmin : ∀ m, m < Nat.find hex →
          ¬ (s.take m).count 91 < (s.take m).count 93 :=
        fun m hm => Nat.find_min hex hm
      rcases hk0 : Nat.find hex with _ | j
      · rw [hk0] at hP
        simp at hP
      · rw [hk0] at hP
        have hjmin : ¬ (s.take j).count 91 < (s.take j).count 93 := hmin j (by omega)
        have hjlen : j < s.length := by
          by_contra hc
          apply hjmin
          have e1 : s.take (j + 1) = s := List.take_of_length_le (by omega)
          have e2 : s.take j = s := List.take_of_length_le (by omega)
          rw [e1] at hP
          rw [e2]
          exact hP
        have hsucc : s.take (j + 1) = s.take j ++ [s.getD j 0] := by
          rw [List.take_succ, List.getElem?_eq_getElem hjlen,
            List.getD_eq_getElem s 0 hjlen]
          rfl
        rw [hsucc, List.count_append, List.count_append] at hP
        by_cases hop : s.getD j 0 = 93
        · refine ⟨j, hjlen, hop, ?_⟩
          rw [hop] at hP
          have e91 : ([93] : List Nat).count 91 = 0 := by decide
          have e93 : ([93] : List Nat).count 93 = 1 := by decide
          rw [e91, e93] at hP
          omega
        · exfalso
          apply hjmin
          have h91c : ([s.getD j 0] : List Nat).count 91 ≤ 1 := by
            rw [List.count_cons, List.count_nil]
            split <;> omega
          have h93c : ([s.getD j 0] : List Nat).count 93 = 0 := by
            rw [List.count_cons, List.count_nil]
            have hb : (s.getD j 0 == 93) = false := by
              simpa using hop
            rw [hb]
            simp
          omega
    · right
      exact hend
  · rintro (⟨j, hj, hop, hcount⟩ | hne) ⟨h1, h2⟩
    · have hle := h1 (j + 1) (by omega)
      have hsucc : s.take (j + 1) = s.take j ++ [s.getD j 0] := by
        rw [List.take_succ, List.getElem?_eq_getElem hj, List.getD_eq_getElem s 0 hj]
        rfl
      rw [hsucc, hop, List.count_append, List.count_append] at hle
      simp [List.count_cons] at hle
      omega
    · exact hne (by omega)

theorem take_len_of_le {code : List Nat} {n : Nat} (hn : n ≤ code.length) :
    (code.take n).length = n := by
  rw [List.length_take]
  omega

theorem getD_take {code : List Nat} {n j : Nat} (hj : j < n) (hn : n ≤ code.length) :
    (code.take n).getD j 0 = code.getD j 0 := by
  have h1 : j < (code.take n).length := by
    rw [List.length_take]
    omega
  rw [List.getD_eq_getElem _ 0 h1, List.getD_eq_getElem code 0 (by omega)]
  exact List.getElem_take code

theorem take_take_of_le {code : List Nat} {j n : Nat} (h : j ≤ n) :
    (code.take n).take j = code.take j := by
  rw [List.take_take]
  congr 1
  omega

theorem stackInv_lt {code : List Nat} : ∀ {c : Nat} {st : List Nat},
    StackInv code c st → ∀ e ∈ st, e < c := by
  intro c st
  induction st generalizing c with
  | nil => intro _ e he; cases he
  | cons t rest ih =>
    intro h e he
    obtain ⟨h1, _, _, h4⟩ := h
    rcases List.mem_cons.mp he with rfl | he
    · exact h1
    · exact lt_trans (ih h4 e he) h1

theorem matched_lt_length {code : List Nat} {o c : Nat} (h : MatchedPair code o c) :
    c < code.length := by
  by_contra hc
  have h93 := h.2.2.1
  rw [List.getD_eq_default code 0 (by omega)] at h93
  exact absurd h93 (by decide)

theorem matched_unique_lt {code : List Nat} {o c c' : Nat} (h : MatchedPair code o c)
    (h' : MatchedPair code o c') (hlt : c < c') : False := by
  have hclen : c < code.length := matched_lt_length h
  obtain ⟨hoc, ho91, hc93, hbal⟩ := h
  obtain ⟨hoc', _, _, hbal'⟩ := h'
  have e1 : slice code (o + 1) (c + 1) = slice code (o + 1) c ++ [code.getD c 0] :=
    slice_extend code (o + 1) c (by omega) hclen
  have e2 : (slice code (o + 1) c').take (c - o) = slice code (o + 1) (c + 1) := by
    unfold slice
    rw [List.take_take]
    congr 1
    omega
  have hle := bal_prefix_le hbal' (c - o)
  rw [e2, e1, hc93, List.count_append, List.count_append] at hle
  have e91 : ([93] : List Nat).count 91 = 0 := by decide
  have e93 : ([93] : List Nat).count 93 = 1 := by decide
  rw [e91, e93] at hle
  have heq := hbal.2
  omega

theorem matched_unique {code : List Nat} {o c c' : Nat} (h : MatchedPair code o c)
    (h' : MatchedPair code o c') : c = c' := by
  rcases lt_trichotomy c c' with hlt | he | hlt
  · exact (matched_unique_lt h h' hlt).elim
  · exact he
  · exact (matched_unique_lt h' h hlt).elim

/-- Main invariant of the resolver's scan: on success, every entry of the
result comes from a matched pair (with both entries present), entries are
never overwritten, and every bracket in the unscanned region as well as
every stacked open bracket ends up with an entry. -/
theorem scan_invariant (code : List Nat) (n : Nat) (hn : n ≤ code.length) :
    ∀ (rem : List Nat) (counter : Nat) (stack : List Nat) (jumps res : Nat → Option Nat),
      rem = slice code counter n →
      counter ≤ n →
      StackInv code counter stack →
      (∀ i, counter ≤ i → jumps i = none) →
      (∀ e ∈ stack, jumps e = none) →
      PairsOK code jumps →
      scanJumps counter rem stack jumps = some res →
      PairsOK code res ∧
        (∀ k v, jumps k = some v → res k = some v) ∧
        (∀ e ∈ stack, (res e).isSome = true) ∧
        (∀ k, counter ≤ k → k < n → (code.getD k 0 = 91 ∨ code.getD k 0 = 93) →
          (res k).isSome = true) := by
  intro rem
  induction rem with
  | nil =>
    intro counter stack jumps res hrem hcn hstack hjn hjs hpairs hscan
    have hcn' : n ≤ counter := by
      by_contra hc
      push_neg at hc
      rw [slice_cons code counter n hc (by omega)] at hrem
      simp at hrem
    rcases stack with _ | ⟨t, st⟩
    · simp [scanJumps] at hscan
      subst hscan
      refine ⟨hpairs, fun k v hv => hv, by simp, ?_⟩
      intro k hk1 hk2 _
      exact absurd hk2 (by omega)
    · simp [scanJumps] at hscan
  | cons opcode rest ih =>
    intro counter stack jumps res hrem hcn hstack hjn hjs hpairs hscan
    have hclt : counter < n := by
      by_contra hc
      push_neg at hc
      rw [slice_nil_of_le code counter n hc] at hrem
      simp at hrem
    have hcl : counter < code.length := by omega
    rw [slice_cons code counter n hclt hcl] at hrem
    injection hrem with hop hrest
    by_cases h91 : opcode = 91
    · subst h91
      rw [scanJumps_cons_open] at hscan
      have hstack' : StackInv code (counter + 1) (counter :: stack) := by
        refine ⟨by omega, hop.symm, ?_, hstack⟩
        rw [slice_self]
        exact bal_nil
      have hjs' : ∀ e ∈ counter :: stack, jumps e = none := by
        intro e he
        rcases List.mem_cons.mp he with rfl | he
        · exact hjn e le_rfl
        · exact hjs e he
      obtain ⟨P, M, S, C⟩ := ih (counter + 1) (counter :: stack) jumps res hrest
        (by omega) hstack' (fun i hi => hjn i (by omega)) hjs' hpairs hscan
      refine ⟨P, M, fun e he => S e (List.mem_cons_of_mem _ he), ?_⟩
      intro k hk1 hk2 hk3
      rcases Nat.eq_or_lt_of_le hk1 with rfl | hk1'
      · exact S counter (List.mem_cons_self _ _)
      · exact C k (by omega) hk2 hk3
    · by_cases h93 : opcode = 93
      · subst h93
        rcases stack with _ | ⟨value, rest2⟩
        · rw [scanJumps_cons_close_nil] at hscan
          simp at hscan
        · rw [scanJumps_cons_close] at hscan
          obtain ⟨hvlt, hv91, hvbal, hrest2⟩ := hstack
          have hvalue_len : value < code.length := by omega
          have hjval : jumps value = none := hjs value (List.mem_cons_self _ _)
          have hjcnt : jumps counter = none := hjn counter le_rfl
          have hrest2_lt : ∀ e ∈ rest2, e < value := stackInv_lt hrest2
          have hmatch : MatchedPair code value counter := ⟨hvlt, hv91, hop.symm, hvbal⟩
          set J : Nat → Option Nat :=
            bfInsert (bfInsert jumps value (counter + 1)) counter (value + 1) with hJ
          have hvne : value ≠ counter := by omega
          have hJval : J value = some (counter + 1) := by
            simp [hJ, bfInsert, hvne]
          have hJcnt : J counter = some (value + 1) := by
            simp [hJ, bfInsert]
          have hJother : ∀ k, k ≠ value → k ≠ counter → J k = jumps k := by
            intro k hk1 hk2
            simp [hJ, bfInsert, hk1, hk2]
          have hstack' : StackInv code (counter + 1) rest2 := by
            rcases rest2 with _ | ⟨t2, r'⟩
            · trivial
            · obtain ⟨ht2, ht291, ht2bal, hr'⟩ := hrest2
              refine ⟨by omega, ht291, ?_, hr'⟩
              have d1 : slice code (t2 + 1) (counter + 1) =
                  slice code (t2 + 1) value ++ slice code value (counter + 1) :=
                slice_append code (t2 + 1) value (counter + 1) (by omega) (by omega)
              have d2 : slice code value (counter + 1) =
                  slice code value (value + 1) ++ slice code (value + 1) (counter + 1) :=
                slice_append code value (value + 1) (counter + 1) (by omega) (by omega)
              have d3 : slice code (value + 1) (counter + 1) =
                  slice code (value + 1) counter ++ [code.getD counter 0] :=
                slice_extend code (value + 1) counter (by omega) hcl
              have d4 : slice code value (value + 1) = [code.getD value 0] :=
                slice_singleton code value hvalue_len
              rw [d1, d2, d3, d4, hv91, ← hop]
              have hw := bal_wrap ht2bal hvbal
              simpa using hw
          have hjn' : ∀ i, counter + 1 ≤ i → J i = none := by
            intro i hi
            rw [hJother i (by omega) (by omega)]
            exact hjn i (by omega)
          have hjs' : ∀ e ∈ rest2, J e = none := by
            intro e he
            have he' := hrest2_lt e he
            rw [hJother e (by omega) (by omega)]
            exact hjs e (List.mem_cons_of_mem _ he)
          have hpairs' : PairsOK code J := by
            intro k v hkv
            by_cases hkc : k = counter
            · rw [hkc, hJcnt] at hkv
              injection hkv with hv
              exact ⟨value, counter, hmatch, Or.inr ⟨hkc, hv.symm⟩, hJval, hJcnt⟩
            · by_cases hkval : k = value
              · rw [hkval, hJval] at hkv
                injection hkv with hv
                exact ⟨value, counter, hmatch, Or.inl ⟨hkval, hv.symm⟩, hJval, hJcnt⟩
              · rw [hJother k hkval hkc] at hkv
                obtain ⟨o, c, hm, hd, hoe, hce⟩ := hpairs k v hkv
                have honc : o ≠ counter := by
                  intro h; rw [h, hjcnt] at hoe; exact Option.noConfusion hoe
                have honv : o ≠ value := by
                  intro h; rw [h, hjval] at hoe; exact Option.noConfusion hoe
                have hcnc : c ≠ counter := by
                  intro h; rw [h, hjcnt] at hce; exact Option.noConfusion hce
                have hcnv : c ≠ value := by
                  intro h; rw [h, hjval] at hce; exact Option.noConfusion hce
                exact ⟨o, c, hm, hd, by rw [hJother o honv honc]; exact hoe,
                  by rw [hJother c hcnv hcnc]; exact hce⟩
          obtain ⟨P, M, S, C⟩ := ih (counter + 1) rest2 J res hrest (by omega)
            hstack' hjn' hjs' hpairs' hscan
          have hMres : ∀ k v, jumps k = some v → res k = some v := by
            intro k v hkv
            have hknc : k ≠ counter := by
              intro h; rw [h, hjcnt] at hkv; exact Option.noConfusion hkv
            have hknv : k ≠ value := by
              intro h; rw [h, hjval] at hkv; exact Option.noConfusion hkv
            exact M k v (by rw [hJother k hknv hknc]; exact hkv)
          refine ⟨P, hMres, ?_, ?_⟩
          · intro e he
            rcases List.mem_cons.mp he with rfl | he
            · have hres := M e (counter + 1) hJval
              simp [hres]
            · exact S e he
          · intro k hk1 hk2 hk3
            rcases Nat.eq_or_lt_of_le hk1 with rfl | hk1'
            · have hres := M counter (value + 1) hJcnt
              simp [hres]
            · exact C k (by omega) hk2 hk3
      · rw [scanJumps_cons_other counter opcode rest stack jumps h91 h93] at hscan
        have hstack' : StackInv code (counter + 1) stack := by
          rcases stack with _ | ⟨t, r⟩
          · trivial
          · obtain ⟨ht, ht91, htbal, hr⟩ := hstack
            refine ⟨by omega, ht91, ?_, hr⟩
            rw [slice_extend code (t + 1) counter (by omega) hcl, ← hop]
            exact bal_append_other htbal h91 h93
        obtain ⟨P, M, S, C⟩ := ih (counter + 1) stack jumps res hrest (by omega)
          hstack' (fun i hi => hjn i (by omega)) hjs hpairs hscan
        refine ⟨P, M, S, ?_⟩
        intro k hk1 hk2 hk3
        rcases Nat.eq_or_lt_of_le hk1 with rfl | hk1'
        · rw [← hop] at hk3
          rcases hk3 with h | h
          · exact absurd h h91
          · exact absurd h h93
        · exact C k (by omega) hk2 hk3

/-- C1: for every program accepted by the Jump Resolver and every matched
bracket pair with the open bracket at offset `o` and the matching close
bracket at offset `c`, the produced mapping contains exactly the two entries
`jump[o] = c + 1` and `jump[c] = o + 1` (the map holds one value per key, so
these equalities pin both entries). -/
theorem c1_matched_pair_entries (code : List Nat) (n : Nat) (res : Nat → Option Nat)
    (o c : Nat) (hn : n ≤ code.length) (hres : compute_jumps code n = some res)
    (hm : MatchedPair code o c) (hc : c < n) :
    res o = some (c + 1) ∧ res c = some (o + 1) := by
  unfold compute_jumps at hres
  obtain ⟨P, M, S, C⟩ := scan_invariant code n hn (code.take n) 0 [] (fun _ => none)
    res (by rw [slice_zero]) (by omega) trivial (fun i _ => rfl) (by simp)
    (fun k v h => by simp at h) hres
  have hoc := hm.1
  have hcov := C o (by omega) (by omega) (Or.inl hm.2.1)
  obtain ⟨v, hv⟩ := Option.isSome_iff_exists.mp hcov
  obtain ⟨o', c', hm', hd, hoe, hce⟩ := P o v hv
  rcases hd with ⟨heq, hveq⟩ | ⟨heq, hveq⟩
  · rw [← heq] at hm' hce
    have hcc : c' = c := matched_unique hm' hm
    rw [hcc] at hce hveq
    exact ⟨by rw [hv, hveq], hce⟩
  · exfalso
    have h1 := hm.2.1
    have h2 := hm'.2.2.1
    rw [← heq] at h2
    omega

/-- C1 witness: for the program `[+][-]` the Jump Resolver succeeds and the
open bracket at offset 0 maps to 3 while its matching close at offset 2 maps
to 1. -/
theorem c1_matched_pair_entries_witness :
    6 ≤ ([91, 43, 93, 91, 45, 93] : List Nat).length ∧
    compute_jumps [91, 43, 93, 91, 45, 93] 6 =
      some (bfInsert (bfInsert (bfInsert (bfInsert (fun _ => none) 0 3) 2 1) 3 6) 5 4) ∧
    MatchedPair [91, 43, 93, 91, 45, 93] 0 2 ∧ (2 : Nat) < 6 ∧
    bfInsert (bfInsert (bfInsert (bfInsert (fun _ => none) 0 3) 2 1) 3 6) 5 4 0 =
      some 3 ∧
    bfInsert (bfInsert (bfInsert (bfInsert (fun _ => none) 0 3) 2 1) 3 6) 5 4 2 =
      some 1 := by
  refine ⟨by decide, rfl, by decide, by decide, ?_, ?_⟩
  · exact (c1_matched_pair_entries [91, 43, 93, 91, 45, 93] 6
      (bfInsert (bfInsert (bfInsert (bfInsert (fun _ => none) 0 3) 2 1) 3 6) 5 4) 0 2
      (by decide) rfl (by decide) (by decide)).1
  · exact (c1_matched_pair_entries [91, 43, 93, 91, 45, 93] 6
      (bfInsert (bfInsert (bfInsert (bfInsert (fun _ => none) 0 3) 2 1) 3 6) 5 4) 0 2
      (by decide) rfl (by decide) (by decide)).2

/-- C2: the Jump Resolver fails with the unbalanced-brackets error exactly
when some close bracket is scanned with no pending open bracket left, or the
counts of open and close brackets in the scanned bytes differ (an open
bracket never closed); in every other case it succeeds. -/
theorem c2_resolver_error_iff (code : List Nat) (n : Nat) (hn : n ≤ code.length) :
    compute_jumps code n = none ↔
      ((∃ k, UnmatchedCloseAt code n k) ∨
        (code.take n).count 91 ≠ (code.take n).count 93) := by
  unfold compute_jumps
  rw [scan_none_iff (code.take n) 0 [] (fun _ => none)]
  simp only [List.length_nil]
  rw [not_balFrom_zero_iff]
  have hjlen : (code.take n).length = n := take_len_of_le hn
  constructor
  · rintro (⟨j, hj, hop, hcnt⟩ | hne)
    · left
      rw [hjlen] at hj
      rw [getD_take hj hn] at hop
      rw [take_take_of_le (by omega : j ≤ n)] at hcnt
      exact ⟨j, hj, hop, hcnt⟩
    · right
      omega
  · rintro (⟨k, hk1, hk2, hk3⟩ | hne)
    · left
      refine ⟨k, by omega, ?_, ?_⟩
      · rw [getD_take hk1 hn]
        exact hk2
      · rw [take_take_of_le (by omega : k ≤ n)]
        exact hk3
    · right
      omega

/-- C2 witness: both `[+]]` (an extra unmatched close) and `[[+]` (an extra
unmatched open) are rejected by the Jump Resolver. -/
theorem c2_resolver_error_iff_witness :
    compute_jumps [91, 43, 93, 93] 4 = none ∧
    compute_jumps [91, 91, 43, 93] 4 = none :=
  ⟨(c2_resolver_error_iff [91, 43, 93, 93] 4 (by decide)).mpr (Or.inr (by decide)),
   (c2_resolver_error_iff [91, 91, 43, 93] 4 (by decide)).mpr (Or.inr (by decide))⟩

/-- C9: for every program on which the Jump Resolver succeeds, every jump
forward (91) and jump backward (93) byte among the scanned bytes has an
entry in the produced mapping keyed by its own offset (exactly one, the map
holding one value per key). -/
theorem c9_full_coverage (code : List Nat) (n : Nat) (res : Nat → Option Nat)
    (hn : n ≤ code.length) (hres : compute_jumps code n = some res) :
    ∀ k, k < n → (code.getD k 0 = 91 ∨ code.getD k 0 = 93) →
      (res k).isSome = true := by
  unfold compute_jumps at hres
  obtain ⟨P, M, S, C⟩ := scan_invariant code n hn (code.take n) 0 [] (fun _ => none)
    res (by rw [slice_zero]) (by omega) trivial (fun i _ => rfl) (by simp)
    (fun k v h => by simp at h) hres
  exact fun k hk hb => C k (by omega) hk hb

/-- C9 witness: in `[+][-]` all four bracket offsets 0, 2, 3, 5 are covered
by the produced mapping. -/
theorem c9_full_coverage_witness :
    ((bfInsert (bfInsert (bfInsert (bfInsert (fun _ => none) 0 3) 2 1) 3 6) 5 4
        0).isSome = true) ∧
    ((bfInsert (bfInsert (bfInsert (bfInsert (fun _ => none) 0 3) 2 1) 3 6) 5 4
        2).isSome = true) ∧
    ((bfInsert (bfInsert (bfInsert (bfInsert (fun _ => none) 0 3) 2 1) 3 6) 5 4
        3).isSome = true) ∧
    ((bfInsert (bfInsert (bfInsert (bfInsert (fun _ => none) 0 3) 2 1) 3 6) 5 4
        5).isSome = true) := by
  have h := c9_full_coverage [91, 43, 93, 91, 45, 93] 6
    (bfInsert (bfInsert (bfInsert (bfInsert (fun _ => none) 0 3) 2 1) 3 6) 5 4)
    (by decide) rfl
  exact ⟨h 0 (by decide) (Or.inl rfl), h 2 (by decide) (Or.inr rfl),
    h 3 (by decide) (Or.inl rfl), h 5 (by decide) (Or.inr rfl)⟩

theorem upd_pc_pc (s : VMState) (x : Nat) : ({ s with pc := x } : VMState).pc = x := rfl

theorem upd_pc_dp (s : VMState) (x : Nat) : ({ s with pc := x } : VMState).dp = s.dp := rfl

theorem upd_pc_code (s : VMState) (x : Nat) :
    ({ s with pc := x } : VMState).code = s.code := rfl

theorem upd_pc_data (s : VMState) (x : Nat) :
    ({ s with pc := x } : VMState).data = s.data := rfl

theorem upd_pc_jumps (s : VMState) (x : Nat) :
    ({ s with pc := x } : VMState).jumps = s.jumps := rfl

theorem dispatch_other (inp : Option Char) (s1 : VMState) (op : Nat) (h43 : op ≠ 43)
    (h44 : op ≠ 44) (h45 : op ≠ 45) (h46 : op ≠ 46) (h60 : op ≠ 60) (h62 : op ≠ 62)
    (h91 : op ≠ 91) (h93 : op ≠ 93) : dispatch inp s1 op = .next s1 := by
  simp [dispatch, h43, h44, h45, h46, h60, h62, h91, h93]

theorem dispatch_ne_halted (inp : Option Char) (s1 : VMState) (op : Nat) :
    dispatch inp s1 op ≠ .halted := by
  unfold dispatch
  repeat' split
  all_goals simp

/-- C7: the dispatch loop of `execute` reads and dispatches an instruction
byte only while `pc` is strictly below the code length (the loop body's read
of `code[pc]` happens behind this test), and it exits, as its only
success-path termination, exactly when `pc` reaches or exceeds the code
length. -/
theorem c7_dispatch_boundary (inp : Option Char) (s : VMState) :
    step inp s = .halted ↔ s.code.length ≤ s.pc := by
  unfold step
  split
  · constructor
    · intro hc
      exact absurd hc (dispatch_ne_halted _ _ _)
    · intro hle
      exact absurd hle (by omega)
  · constructor
    · intro _
      omega
    · intro _
      rfl

/-- C8: dispatching any byte that is none of the eight recognized opcodes
(43 `+`, 44 `,`, 45 `-`, 46 `.`, 60 `<`, 62 `>`, 91 `[`, 93 `]`) only
advances `pc` by one: the resulting state is the input state with `pc + 1`,
so `dp`, every cell of the data tape and the jump mapping are unchanged and
no error is raised. -/
theorem c8_unknown_opcode_noop (inp : Option Char) (s : VMState) (b : Nat)
    (h : s.pc < s.code.length) (hb : s.code.getD s.pc 0 = b) (h43 : b ≠ 43)
    (h44 : b ≠ 44) (h45 : b ≠ 45) (h46 : b ≠ 46) (h60 : b ≠ 60) (h62 : b ≠ 62)
    (h91 : b ≠ 91) (h93 : b ≠ 93) :
    step inp s = .next { s with pc := s.pc + 1 } := by
  unfold step
  rw [if_pos h, hb]
  exact dispatch_other inp _ b h43 h44 h45 h46 h60 h62 h91 h93

/-- C8 witness: dispatching the unrecognized byte 35 (`#`) advances `pc`
from 0 to 1 and changes nothing else. -/
theorem c8_unknown_opcode_noop_witness :
    step none ⟨0, 0, [35], fun _ => 0, fun _ => none⟩ =
      .next ⟨1, 0, [35], fun _ => 0, fun _ => none⟩ :=
  c8_unknown_opcode_noop none ⟨0, 0, [35], fun _ => 0, fun _ => none⟩ 35 (by decide)
    rfl (by decide) (by decide) (by decide) (by decide) (by decide) (by decide)
    (by decide) (by decide)

/-- C4 (code-bug evidence): the read instruction stores the decimal digit
value `to_digit(10)` of the character, not its character code mod 256, and
its `unwrap` panics on any non-digit character: on input `a` (code 97,
97 mod 256 = 97) the handler panics instead of storing 97, and on input `7`
(code 55) it stores 7, not 55.  The no-input arm is as specified: the cell
is unchanged and execution continues. -/
theorem c4_read_stores_digit_not_char :
    readStore 'a' ⟨1, 0, [44], fun _ => 0, fun _ => none⟩ = none ∧
    readStore '7' ⟨1, 0, [44], fun _ => 0, fun _ => none⟩ =
      some ⟨1, 0, [44], updData (fun _ => 0) 0 7, fun _ => none⟩ ∧
    ('a' : Char).toNat % 256 = 97 ∧
    ('7' : Char).toNat % 256 = 55 ∧
    step (some 'a') ⟨0, 0, [44], fun _ => 0, fun _ => none⟩ = .crash ∧
    step none ⟨0, 0, [44], fun _ => 0, fun _ => none⟩ =
      .next ⟨1, 0, [44], fun _ => 0, fun _ => none⟩ :=
  ⟨rfl, rfl, by decide, by decide, rfl, rfl⟩

/-- C5: when a jump-forward byte (91) is dispatched with the current cell 0,
`pc` is overwritten with `jumpMapping[pc - 1]` where `pc` is the already
advanced counter (the key is the dispatched instruction's own offset), and
with a non-zero cell `pc` only gets the normal one-position advance;
symmetrically a jump-backward byte (93) overwrites `pc` with
`jumpMapping[pc - 1]` exactly when the cell is non-zero. -/
theorem c5_jump_dispatch (inp : Option Char) (s : VMState) (t : Nat)
    (h : s.pc < s.code.length) :
    (s.code.getD s.pc 0 = 91 →
      (s.data s.dp = 0 → s.jumps s.pc = some t →
        step inp s = .next { s with pc := t }) ∧
      (s.data s.dp ≠ 0 → step inp s = .next { s with pc := s.pc + 1 })) ∧
    (s.code.getD s.pc 0 = 93 →
      (s.data s.dp ≠ 0 → s.jumps s.pc = some t →
        step inp s = .next { s with pc := t }) ∧
      (s.data s.dp = 0 → step inp s = .next { s with pc := s.pc + 1 })) := by
  constructor
  · intro hop
    constructor
    · intro hz hj
      unfold step
      rw [if_pos h, hop]
      have hfwd : jump_fwd { s with pc := s.pc + 1 } = some { s with pc := t } := by
        unfold jump_fwd
        rw [upd_pc_data, upd_pc_dp, if_pos hz, upd_pc_pc, upd_pc_jumps,
          Nat.add_sub_cancel, hj]
      simp [dispatch, hfwd]
    · intro hnz
      unfold step
      rw [if_pos h, hop]
      have hfwd : jump_fwd { s with pc := s.pc + 1 } = some { s with pc := s.pc + 1 } := by
        unfold jump_fwd
        rw [upd_pc_data, upd_pc_dp, if_neg hnz]
      simp [dispatch, hfwd]
  · intro hop
    constructor
    · intro hnz hj
      unfold step
      rw [if_pos h, hop]
      have hbck : jump_bck { s with pc := s.pc + 1 } = some { s with pc := t } := by
        unfold jump_bck
        rw [upd_pc_data, upd_pc_dp, if_pos hnz, upd_pc_pc, upd_pc_jumps,
          Nat.add_sub_cancel, hj]
      simp [dispatch, hbck]
    · intro hz
      unfold step
      rw [if_pos h, hop]
      have hbck : jump_bck { s with pc := s.pc + 1 } = some { s with pc := s.pc + 1 } := by
        unfold jump_bck
        rw [upd_pc_data, upd_pc_dp]
        rw [if_neg (by simp [hz])]
      simp [dispatch, hbck]

/-- C5 witness: on the program `[+]` with mapping 0 to 3 and 2 to 1, a
jump forward at offset 0 with cell 0 lands on pc 3 and falls through to pc 1
with cell 1; a jump backward at offset 2 with cell 1 lands on pc 1 and falls
through to pc 3 with cell 0. -/
theorem c5_jump_dispatch_witness :
    step none ⟨0, 0, [91, 43, 93], fun _ => 0,
        bfInsert (bfInsert (fun _ => none) 0 3) 2 1⟩ =
      .next ⟨3, 0, [91, 43, 93], fun _ => 0,
        bfInsert (bfInsert (fun _ => none) 0 3) 2 1⟩ ∧
    step none ⟨0, 0, [91, 43, 93], fun _ => 1,
        bfInsert (bfInsert (fun _ => none) 0 3) 2 1⟩ =
      .next ⟨1, 0, [91, 43, 93], fun _ => 1,
        bfInsert (bfInsert (fun _ => none) 0 3) 2 1⟩ ∧
    step none ⟨2, 0, [91, 43, 93], fun _ => 1,
        bfInsert (bfInsert (fun _ => none) 0 3) 2 1⟩ =
      .next ⟨1, 0, [91, 43, 93], fun _ => 1,
        bfInsert (bfInsert (fun _ => none) 0 3) 2 1⟩ ∧
    step none ⟨2, 0, [91, 43, 93], fun _ => 0,
        bfInsert (bfInsert (fun _ => none) 0 3) 2 1⟩ =
      .next ⟨3, 0, [91, 43, 93], fun _ => 0,
        bfInsert (bfInsert (fun _ => none) 0 3) 2 1⟩ := by
  refine ⟨?_, ?_, ?_, ?_⟩
  · exact ((c5_jump_dispatch none ⟨0, 0, [91, 43, 93], fun _ => 0,
      bfInsert (bfInsert (fun _ => none) 0 3) 2 1⟩ 3 (by decide)).1 rfl).1 rfl rfl
  · exact ((c5_jump_dispatch none ⟨0, 0, [91, 43, 93], fun _ => 1,
      bfInsert (bfInsert (fun _ => none) 0 3) 2 1⟩ 0 (by decide)).1 rfl).2 (by decide)
  · exact ((c5_jump_dispatch none ⟨2, 0, [91, 43, 93], fun _ => 1,
      bfInsert (bfInsert (fun _ => none) 0 3) 2 1⟩ 1 (by decide)).2 rfl).1 (by decide) rfl
  · exact ((c5_jump_dispatch none ⟨2, 0, [91, 43, 93], fun _ => 0,
      bfInsert (bfInsert (fun _ => none) 0 3) 2 1⟩ 0 (by decide)).2 rfl).2 rfl

/-- C3: the increment-pointer handler sets `dp` to `(dp + 1) mod DATA_SIZE`
and the decrement-pointer handler sets `dp` to `(dp - 1) mod DATA_SIZE` (as
integers); both handlers are total (pointer motion is never an error) and
keep `dp` below `DATA_SIZE`; starting at index `DATA_SIZE - 2`, four
increments land on index 2, and starting at index 2, four decrements land on
index `DATA_SIZE - 2`. -/
theorem c3_pointer_wraps (s : VMState) :
    (data_ptr_inc s).dp = (s.dp + 1) % DATA_SIZE ∧
    ((data_ptr_dec s).dp : Int) = ((s.dp : Int) - 1) % (DATA_SIZE : Int) ∧
    (data_ptr_inc s).dp < DATA_SIZE ∧
    (data_ptr_dec s).dp < DATA_SIZE ∧
    (data_ptr_inc^[4]
      (⟨0, DATA_SIZE - 2, [], fun _ => 0, fun _ => none⟩ : VMState)).dp = 2 ∧
    (data_ptr_dec^[4]
      (⟨0, 2, [], fun _ => 0, fun _ => none⟩ : VMState)).dp = DATA_SIZE - 2 := by
  have hds : DATA_SIZE = 2 ^ 15 := by decide
  refine ⟨?_, ?_, ?_, ?_, by decide, by decide⟩
  · show (s.dp + 1) &&& (DATA_SIZE - 1) = (s.dp + 1) % DATA_SIZE
    rw [hds]
    exact land_mask (s.dp + 1) 15
  · exact emod_toNat_cast ((s.dp : Int) - 1) DATA_SIZE (by decide)
  · show (s.dp + 1) &&& (DATA_SIZE - 1) < DATA_SIZE
    rw [hds, land_mask]
    exact Nat.mod_lt _ (by decide)
  · exact emod_toNat_lt ((s.dp : Int) - 1) DATA_SIZE (by decide)

theorem data_value_inc_cell (s : VMState) :
    (data_value_inc s).data s.dp = (s.data s.dp + 1) % 256 := by
  show updData s.data s.dp ((s.data s.dp + 1) &&& 255) s.dp = _
  unfold updData
  rw [if_pos rfl]
  have h : (255 : Nat) = 2 ^ 8 - 1 := by decide
  rw [h]
  exact land_mask (s.data s.dp + 1) 8

theorem data_value_dec_cell (s : VMState) :
    (data_value_dec s).data s.dp = (((s.data s.dp : Int) - 1) % 256).toNat := by
  show updData s.data s.dp ((((s.data s.dp : Int) - 1) % 256).toNat) s.dp = _
  unfold updData
  rw [if_pos rfl]

theorem iterate_inc (N : Nat) : ∀ (s : VMState), s.data s.dp < 256 →
    (data_value_inc^[N] s).dp = s.dp ∧
    (data_value_inc^[N] s).data s.dp = (s.data s.dp + N) % 256 := by
  induction N with
  | zero =>
    intro s hv
    refine ⟨rfl, ?_⟩
    simp only [Function.iterate_zero_apply]
    omega
  | succ k ihN =>
    intro s hv
    rw [Function.iterate_succ_apply]
    have hdp : (data_value_inc s).dp = s.dp := rfl
    have hcell : (data_value_inc s).data s.dp = (s.data s.dp + 1) % 256 :=
      data_value_inc_cell s
    have hlt : (data_value_inc s).data (data_value_inc s).dp < 256 := by
      rw [hdp, hcell]
      exact Nat.mod_lt _ (by decide)
    obtain ⟨ih1, ih2⟩ := ihN (data_value_inc s) hlt
    rw [hdp] at ih1 ih2
    rw [hcell] at ih2
    refine ⟨ih1, ?_⟩
    rw [ih2]
    omega

theorem iterate_dec (N : Nat) : ∀ (s : VMState), s.data s.dp < 256 →
    (data_value_dec^[N] s).dp = s.dp ∧
    ((data_value_dec^[N] s).data s.dp : Int) = ((s.data s.dp : Int) - N) % 256 := by
  induction N with
  | zero =>
    intro s hv
    refine ⟨rfl, ?_⟩
    simp only [Function.iterate_zero_apply]
    omega
  | succ k ihN =>
    intro s hv
    rw [Function.iterate_succ_apply]
    have hdp : (data_value_dec s).dp = s.dp := rfl
    have hcell : (data_value_dec s).data s.dp = (((s.data s.dp : Int) - 1) % 256).toNat :=
      data_value_dec_cell s
    have hlt : (data_value_dec s).data (data_value_dec s).dp < 256 := by
      rw [hdp, hcell]
      exact emod_toNat_lt _ 256 (by decide)
    obtain ⟨ih1, ih2⟩ := ihN (data_value_dec s) hlt
    rw [hdp] at ih1 ih2
    rw [hcell] at ih2
    have hcast : ((((s.data s.dp : Int) - 1) % 256).toNat : Int) =
        ((s.data s.dp : Int) - 1) % 256 := emod_toNat_cast _ 256 (by decide)
    rw [hcast] at ih2
    refine ⟨ih1, ?_⟩
    rw [ih2]
    omega

/-- C6: executing `N` increment-value handlers on a cell holding `v < 256`
leaves it holding `(v + N) mod 256`, and `N` decrement-value handlers leave
it holding `(v - N) mod 256` (as integers); a zeroed cell after `N`
increments holds `N mod 256`; a cell preloaded with 253 holds 2 after five
increments, and a cell holding 2 holds 253 after five decrements. -/
theorem c6_value_wraps (s : VMState) (hv : s.data s.dp < 256) (N : Nat) :
    (data_value_inc^[N] s).data s.dp = (s.data s.dp + N) % 256 ∧
    ((data_value_dec^[N] s).data s.dp : Int) = ((s.data s.dp : Int) - N) % 256 ∧
    (data_value_inc^[N]
      (⟨0, 0, [], fun _ => 0, fun _ => none⟩ : VMState)).data 0 = N % 256 ∧
    (data_value_inc^[5]
      (⟨0, 0, [], fun _ => 253, fun _ => none⟩ : VMState)).data 0 = 2 ∧
    (data_value_dec^[5]
      (⟨0, 0, [], fun _ => 2, fun _ => none⟩ : VMState)).data 0 = 253 := by
  refine ⟨(iterate_inc N s hv).2, (iterate_dec N s hv).2, ?_, by decide, by decide⟩
  have h := (iterate_inc N ⟨0, 0, [], fun _ => 0, fun _ => none⟩ (by decide)).2
  simpa using h

/-- C6 witness: instances at a cell preloaded with 253 and N = 5. -/
theorem c6_value_wraps_witness :
    ((253 : Nat) < 256) ∧
    ((data_value_inc^[5]
        (⟨0, 0, [], fun _ => 253, fun _ => none⟩ : VMState)).data 0 =
      (253 + 5) % 256 ∧
    ((data_value_dec^[5]
        (⟨0, 0, [], fun _ => 253, fun _ => none⟩ : VMState)).data 0 : Int) =
      ((253 : Int) - 5) % 256 ∧
    (data_value_inc^[5]
        (⟨0, 0, [], fun _ => 0, fun _ => none⟩ : VMState)).data 0 = 5 % 256 ∧
    (data_value_inc^[5]
        (⟨0, 0, [], fun _ => 253, fun _ => none⟩ : VMState)).data 0 = 2 ∧
    (data_value_dec^[5]
        (⟨0, 0, [], fun _ => 2, fun _ => none⟩ : VMState)).data 0 = 253) :=
  ⟨by decide, c6_value_wraps ⟨0, 0, [], fun _ => 253, fun _ => none⟩ (by decide) 5⟩

theorem step_zero_byte (s : VMState) (h : s.pc < s.code.length)
    (hz : s.code.getD s.pc 0 = 0) :
    step none s = .next { s with pc := s.pc + 1 } := by
  unfold step
  rw [if_pos h, hz]
  exact dispatch_other none _ 0 (by decide) (by decide) (by decide) (by decide)
    (by decide) (by decide) (by decide) (by decide)

theorem getD_replicate_zero : ∀ (m i : Nat), (List.replicate m 0).getD i 0 = 0 := by
  intro m
  induction m with
  | zero =>
    intro i
    exact List.getD_eq_default _ _ (Nat.zero_le i)
  | succ k ihk =>
    intro i
    cases i with
    | zero => rfl
    | succ j =>
      rw [List.replicate_succ, List.getD_cons_succ]
      exact ihk j

theorem run_zeros : ∀ (m : Nat) (s : VMState), s.code.length = CODE_SIZE →
    (∀ i, s.pc ≤ i → s.code.getD i 0 = 0) → s.pc + m = CODE_SIZE →
    run (m + 1) s = some { s with pc := CODE_SIZE } := by
  intro m
  induction m with
  | zero =>
    intro s hlen hz hpc
    have hge : ¬ s.pc < s.code.length := by omega
    show run 1 s = _
    unfold run step
    rw [if_neg hge]
    have he : ({ s with pc := CODE_SIZE } : VMState) = s := by
      have hpc' : s.pc = CODE_SIZE := by omega
      cases s
      simp only [upd_pc_pc] at hpc' ⊢
      rw [← hpc']
    rw [he]
  | succ k ihm =>
    intro s hlen hz hpc
    have hlt : s.pc < s.code.length := by omega
    have hstep : step none s = .next { s with pc := s.pc + 1 } :=
      step_zero_byte s hlt (hz s.pc le_rfl)
    show run (k + 1 + 1) s = _
    rw [run, hstep]
    have h1 : ({ s with pc := s.pc + 1 } : VMState).code.length = CODE_SIZE := hlen
    have h2 : ∀ i, ({ s with pc := s.pc + 1 } : VMState).pc ≤ i →
        ({ s with pc := s.pc + 1 } : VMState).code.getD i 0 = 0 :=
      fun i hi => hz i (le_trans (Nat.le_succ s.pc) hi)
    have h3 : ({ s with pc := s.pc + 1 } : VMState).pc + k = CODE_SIZE := by
      show s.pc + 1 + k = CODE_SIZE
      omega
    exact ihm { s with pc := s.pc + 1 } h1 h2 h3

/-- C10: when `VMCore::load` succeeds with `Ok(n)` on a source of
`n ≤ CODE_SIZE` bytes, the code vector has length exactly `CODE_SIZE`
(32,768) with every byte from offset `n` on equal to 0, and from any state
at or past offset `n` over that code, the dispatch loop walks the trailing
zero bytes as no-ops and exits with `pc = CODE_SIZE`, not `pc = n`. -/
theorem c10_load_pads (src : List Nat) (n : Nat) (s : VMState)
    (hlen : src.length ≤ CODE_SIZE) (hload : load src = some (n, s)) :
    n = src.length ∧ s.code.length = CODE_SIZE ∧
    (∀ i, n ≤ i → s.code.getD i 0 = 0) ∧
    (∀ s2 : VMState, s2.code = s.code → n ≤ s2.pc → s2.pc ≤ CODE_SIZE →
      run (CODE_SIZE - s2.pc + 1) s2 = some { s2 with pc := CODE_SIZE }) := by
  simp only [load] at hload
  rcases hj : compute_jumps (padCode src) (min src.length CODE_SIZE) with _ | j
  · rw [hj] at hload
    simp at hload
  · rw [hj] at hload
    injection hload with hpair
    rw [Prod.mk.injEq] at hpair
    obtain ⟨hn, hs⟩ := hpair
    have hmin : min src.length CODE_SIZE = src.length := Nat.min_eq_left hlen
    have hplen : (padCode src).length = CODE_SIZE := by
      unfold padCode
      rw [List.length_append, List.length_take, List.length_replicate]
      omega
    have hzero : ∀ i, src.length ≤ i → (padCode src).getD i 0 = 0 := by
      intro i hi
      unfold padCode
      by_cases hic : i < CODE_SIZE
      · rw [List.getD_append_right _ _ _ _ (by rw [List.length_take]; omega)]
        exact getD_replicate_zero _ _
      · apply List.getD_eq_default
        rw [List.length_append, List.length_take, List.length_replicate]
        omega
    refine ⟨by omega, ?_, ?_, ?_⟩
    · rw [← hs]
      exact hplen
    · intro i hi
      rw [← hs]
      exact hzero i (by omega)
    · intro s2 hcode hpc hple
      have hr := run_zeros (CODE_SIZE - s2.pc) s2
        (by rw [hcode, ← hs]; exact hplen)
        (by intro i hi; rw [hcode, ← hs]; exact hzero i (by omega))
        (by omega)
      exact hr

/-- C10 witness: loading the empty source succeeds with `Ok(0)`, and running
from `pc = 0` over the all-zero padded code exits with `pc = CODE_SIZE`. -/
theorem c10_load_pads_witness :
    ([] : List Nat).length ≤ CODE_SIZE ∧
    load [] = some (0, ⟨0, 0, padCode [], fun _ => 0, fun _ => none⟩) ∧
    run (CODE_SIZE - 0 + 1) (⟨0, 0, padCode [], fun _ => 0, fun _ => none⟩ : VMState) =
      some ⟨CODE_SIZE, 0, padCode [], fun _ => 0, fun _ => none⟩ := by
  refine ⟨by decide, rfl, ?_⟩
  have h := (c10_load_pads [] 0 ⟨0, 0, padCode [], fun _ => 0, fun _ => none⟩
    (by decide) rfl).2.2.2
  exact h ⟨0, 0, padCode [], fun _ => 0, fun _ => none⟩ rfl (Nat.zero_le _) (by decide)

end RsBf
